import Mathlib

/-!
Shallow embedding of `extract_all_committee_data` from
`src/analyze_full_pdf.py`: a stateful line scanner over the pages of a
roster document.  Pure string/character functions model the Python regex
operations used by the source (each regex is hand-compiled to a
deterministic parser with the backtracking behaviour of the concrete
pattern); the scan is a fold of `processLine` over the lines of each page.
Lines are produced by `text.split('\n')` in the source, so they never
contain a newline character; the models of the anchored patterns rely on
that.
-/

namespace CongressScan

/-- ASCII lowercase letter test (`a`-`z`), by code point. -/
def isLowerA (c : Char) : Bool := 97 ≤ c.toNat && c.toNat ≤ 122

/-- ASCII uppercase letter test (`A`-`Z`), by code point. -/
def isUpperA (c : Char) : Bool := 65 ≤ c.toNat && c.toNat ≤ 90

/-- ASCII letter test, the class `[A-Za-z]`. -/
def isAlphaA (c : Char) : Bool := isUpperA c || isLowerA c

/-- ASCII digit test, the class `\d` on the source's ASCII input. -/
def isDigitA (c : Char) : Bool := 48 ≤ c.toNat && c.toNat ≤ 57

/-- Python `\s` on ASCII text: space, tab, newline, vertical tab,
form feed, carriage return. -/
def isPySpace (c : Char) : Bool :=
  c == ' ' || c == '\t' || c == '\n' || c == '\x0b' || c == '\x0c' || c == '\r'

/-- Case-insensitive match of one pattern character `p` (always an
uppercase letter in the source's patterns) against an input character:
`re.IGNORECASE` lets the lowercase counterpart (code point + 32) match. -/
def matchesCI (p c : Char) : Bool := c == p || c.toNat == p.toNat + 32

/-- The character class `[A-Za-z\s\.\-\']` used for member names in both
member-line patterns of the source (lines 75 and 104). -/
def nameClass (c : Char) : Bool :=
  isAlphaA c || isPySpace c || c == '.' || c == '-' || c == '\''

/-- Python `str.strip()` on a character list: drop whitespace from both
ends. -/
def stripL (l : List Char) : List Char :=
  ((l.dropWhile isPySpace).reverse.dropWhile isPySpace).reverse

/-- Python `str.strip()` on strings, as used on every scanned line
(source line 30). -/
def pyStrip (s : String) : String := (stripL s.toList).asString

/-- Collapse every run of whitespace to a single space: the effect of
`re.sub(r'\s+', ' ', name)` (source lines 81 and 109). -/
def collapseWS : List Char → List Char
  | [] => []
  | [c] => if isPySpace c then [' '] else [c]
  | a :: b :: rest =>
    if isPySpace a && isPySpace b then collapseWS (b :: rest)
    else (if isPySpace a then ' ' else a) :: collapseWS (b :: rest)

/-- `re.sub(r'\s+', ' ', s).strip()`: whitespace normalization applied to
every captured member name. -/
def normSpace (s : String) : String := (stripL (collapseWS s.toList)).asString

/-- `re.sub(r'([a-z])([A-Z])', r'\1 \2', s)` (source line 111): insert a
space at every lowercase-to-uppercase transition; scanning resumes after
each replaced pair, exactly as `re.sub` does. -/
def fixConcat : List Char → List Char
  | [] => []
  | [c] => [c]
  | a :: b :: rest =>
    if isLowerA a && isUpperA b then a :: ' ' :: b :: fixConcat rest
    else a :: fixConcat (b :: rest)

/-- The full name repair of Rule B: whitespace normalization followed by
the concatenation fix (source lines 109-111). -/
def fixName (s : String) : String := (fixConcat (normSpace s).toList).asString

/-- Python `str.isupper()` on ASCII text: no lowercase letter and at least
one uppercase letter (cased characters are the ASCII letters here). -/
def pyIsUpper (l : List Char) : Bool :=
  l.all (fun c => !isLowerA c) && l.any isUpperA

/-- Plain (case-sensitive) list-prefix test, modelling
`str.startswith`. -/
def hasPrefixL : List Char → List Char → Bool
  | [], _ => true
  | _ :: _, [] => false
  | p :: ps, c :: cs => p == c && hasPrefixL ps cs

/-- Substring occurrence test, modelling Python's `in` on strings. -/
def containsSub (sub : List Char) : List Char → Bool
  | [] => hasPrefixL sub []
  | c :: rest => hasPrefixL sub (c :: rest) || containsSub sub rest

/-- Case-insensitive literal consumption: `dropCI pat s` consumes `pat`
(uppercase letters) from the front of `s` under `re.IGNORECASE`. -/
def dropCI : List Char → List Char → Option (List Char)
  | [], s => some s
  | _ :: _, [] => none
  | p :: ps, c :: cs => if matchesCI p c then dropCI ps cs else none

/-- `\s+` followed by nothing the pattern could give back: consume one or
more whitespace characters greedily. -/
def dropWS1 : List Char → Option (List Char)
  | [] => none
  | c :: rest => if isPySpace c then some (rest.dropWhile isPySpace) else none

def subL : List Char := "SUBCOMMITTEE".toList
def ofL : List Char := "OF".toList
def theL : List Char := "THE".toList
def commL : List Char := "COMMITTEE".toList
def onL : List Char := "ON".toList

/-- Tail of the section-header pattern after `SUBCOMMITTEES?`:
`\s+OF\s+THE\s+COMMITTEE\s+ON` under `re.IGNORECASE`. -/
def afterSub (t : List Char) : Option (List Char) := do
  let t ← dropWS1 t
  let t ← dropCI ofL t
  let t ← dropWS1 t
  let t ← dropCI theL t
  let t ← dropWS1 t
  let t ← dropCI commL t
  let t ← dropWS1 t
  dropCI onL t

/-- `re.match(r'SUBCOMMITTEES?\s+OF\s+THE\s+COMMITTEE\s+ON', line,
re.IGNORECASE)` (source line 36): anchored at the start; the greedy
optional `S?` is tried with the `S` first and backtracks if the rest of
the pattern then fails. -/
def subcommParse (s : List Char) : Option (List Char) :=
  match dropCI subL s with
  | none => none
  | some s1 =>
    match s1 with
    | [] => afterSub s1
    | c :: cs =>
      if matchesCI 'S' c then
        match afterSub cs with
        | some r => some r
        | none => afterSub s1
      else afterSub s1

/-- One attempt of `ON\s+(.+)$` (with `re.IGNORECASE`) at the current
position, returning `group(1).strip()`.  Lines contain no newline, so
`$` is end-of-input and `.` matches every remaining character; when the
input ends in whitespace the greedy `\s+` backtracks one character so
that `.+` can match it, which strips to the empty string. -/
def onAt : List Char → Option String
  | o :: n :: rest =>
    if matchesCI 'O' o && matchesCI 'N' n then
      let ws := rest.takeWhile isPySpace
      let r := rest.dropWhile isPySpace
      if ws.isEmpty then none
      else if r.isEmpty then (if 2 ≤ ws.length then some "" else none)
      else some (stripL r).asString
    else none
  | _ => none

/-- `re.search(r'ON\s+(.+)$', line, re.IGNORECASE)` (source line 38):
leftmost attempt that succeeds, scanning start positions left to
right. -/
def searchOn : List Char → Option String
  | [] => none
  | c :: rest =>
    match onAt (c :: rest) with
    | some g => some g
    | none => searchOn rest

/-- `int()` of a nonempty decimal digit string. -/
def digitsToNat (ds : List Char) : Nat :=
  ds.foldl (fun acc c => acc * 10 + (c.toNat - 48)) 0

/-- `([A-Z]{2})`: exactly two uppercase letters at the front, returning
the captured state code and the rest of the input. -/
def stateCode2 : List Char → Option (String × List Char)
  | a :: b :: rem =>
    if isUpperA a && isUpperA b then some (([a, b]).asString, rem) else none
  | _ => none

/-- The tail `,\s*([A-Z]{2})` shared by both member patterns: a comma,
greedy whitespace, then the state code.  The greedy `\s*` never needs to
backtrack because an uppercase letter is not whitespace. -/
def tailTestA : List Char → Option (String × List Char)
  | [] => none
  | c :: r => if c = ',' then stateCode2 (r.dropWhile isPySpace) else none

/-- The optional qualifier `(?:\s*,\s*[A-Za-z]+)?` at the end of the
Rule-B pattern: consumed greedily when it matches, otherwise nothing is
consumed.  It is outside every capture group and only moves the point
where scanning resumes. -/
def optQual (s : List Char) : List Char :=
  match (s.dropWhile isPySpace) with
  | ',' :: r2 =>
    let r3 := r2.dropWhile isPySpace
    if (r3.takeWhile isAlphaA).isEmpty then s else r3.dropWhile isAlphaA
  | _ => s

/-- Rule-B variant of the tail: after the state code the optional
qualifier clause is consumed. -/
def tailTestB (s : List Char) : Option (String × List Char) :=
  match tailTestA s with
  | some (stc, rem) => some (stc, optQual rem)
  | none => none

/-- The lazy group `([A-Za-z\s\.\-\']+?)` of Rule A followed by the state
tail: extend the captured name one character at a time (each character
must be in the class) and stop at the first length where the tail
matches -- the semantics of a lazy `+?`. -/
def lazyA (acc : List Char) : List Char → Option ((String × String) × List Char)
  | [] => none
  | c :: rest =>
    if nameClass c then
      match tailTestA rest with
      | some (stc, rem) => some (((acc ++ [c]).asString, stc), rem)
      | none => lazyA (acc ++ [c]) rest
    else none

/-- Backtracking of the greedy `\s*` that sits between `\d+\.` and the
lazy name group of Rule A: the whitespace run is consumed greedily
first, and is given back one character at a time (from the right) when
the rest of the pattern fails, each returned character then belonging to
the name group (whitespace is in the name class). -/
def tryWsBack : List Char → List Char → Option ((String × String) × List Char)
  | pending, input =>
    match lazyA [] input with
    | some r => some r
    | none =>
      match pending with
      | [] => none
      | c :: p2 => tryWsBack p2 (c :: input)

/-- One attempt of the Rule-A pattern
`(\d+)\.\s*([A-Za-z\s\.\-\']+?),\s*([A-Z]{2})` (source line 75) at the
current position: greedy digits (no shorter run can help, since the next
pattern character is a literal dot), a dot, then the whitespace/name
interplay of `tryWsBack`. -/
def matchAAt (s : List Char) : Option ((Nat × String × String) × List Char) :=
  let ds := s.takeWhile isDigitA
  if ds.isEmpty then none
  else
    match s.dropWhile isDigitA with
    | '.' :: r2 =>
      let ws := r2.takeWhile isPySpace
      let r3 := r2.dropWhile isPySpace
      match tryWsBack ws.reverse r3 with
      | some ((nm, stc), rem) => some ((digitsToNat ds, nm, stc), rem)
      | none => none
    | _ => none

/-- `re.findall` with the Rule-A pattern: leftmost, non-overlapping
matches, resuming after each match; the fuel bounds the recursion and is
instantiated with the input length (every step consumes at least one
character). -/
def findallA : Nat → List Char → List (Nat × String × String)
  | 0, _ => []
  | _, [] => []
  | fuel + 1, c :: rest =>
    match matchAAt (c :: rest) with
    | some (m, rem) => m :: findallA fuel rem
    | none => findallA fuel rest

/-- The lazy group of Rule B (its first character is already fixed as an
uppercase letter by the caller), with the Rule-B tail. -/
def lazyB (acc : List Char) : List Char → Option ((String × String) × List Char)
  | [] => none
  | c :: rest =>
    if nameClass c then
      match tailTestB rest with
      | some (stc, rem) => some (((acc ++ [c]).asString, stc), rem)
      | none => lazyB (acc ++ [c]) rest
    else none

/-- One attempt of the Rule-B pattern
`([A-Z][A-Za-z\s\.\-\']+?),\s*([A-Z]{2})(?:\s*,\s*[A-Za-z]+)?`
(source line 104) at the current position. -/
def matchBAt : List Char → Option ((String × String) × List Char)
  | [] => none
  | c :: rest => if isUpperA c then lazyB [c] rest else none

/-- `re.findall` with the Rule-B pattern. -/
def findallB : Nat → List Char → List (String × String)
  | 0, _ => []
  | _, [] => []
  | fuel + 1, c :: rest =>
    match matchBAt (c :: rest) with
    | some (m, rem) => m :: findallB fuel rem
    | none => findallB fuel rest

/-! ## Data model: scan state, records, aggregates -/

/-- The four mutable scan variables of the source (lines 16-19). -/
structure ScanState where
  current_committee : Option String
  current_subcommittee : Option String
  in_subcommittee_section : Bool
  is_majority : Bool
  deriving DecidableEq, Repr

/-- Initial scan state (source lines 16-19). -/
def initState : ScanState :=
  { current_committee := none, current_subcommittee := none,
    in_subcommittee_section := false, is_majority := true }

/-- One assignment record, the dict built at source lines 85-92 and
115-122. -/
structure Assignment where
  committee : Option String
  subcommittee : Option String
  position : Nat
  page : Nat
  group : String
  raw_line : String
  deriving DecidableEq, Repr

/-- Python truthiness of an optional string (`None` and `""` are
falsy), as used by `if current_subcommittee:` and
`if ... and current_committee:`. -/
def truthy : Option String → Bool
  | none => false
  | some s => !(s == "")

/-- `defaultdict`-style update: apply `f` to the entry at `k`, treating a
missing entry as `d`; a fresh key is appended at the end, matching the
insertion-order semantics of a Python dict. -/
def updAssocD {κ β : Type} [DecidableEq κ] (k : κ) (f : β → β) (d : β) :
    List (κ × β) → List (κ × β)
  | [] => [(k, f d)]
  | (k1, b1) :: rest =>
    if k = k1 then (k1, f b1) :: rest else (k1, b1) :: updAssocD k f d rest

/-- `set.add`: insert a member key if it is not already present. -/
def insertSet (x : String) (l : List String) : List String :=
  if x ∈ l then l else l ++ [x]

/-- The four accumulators of the source (lines 11-14): `committees`,
`subcommittees`, `all_members`, `member_assignments`.  Dicts are
insertion-ordered association lists; committee keys carry the
`Option` because `current_committee` may still be `None` when a record
is produced. -/
structure Agg where
  committees : List (Option String × List String)
  subcommittees : List (Option String × List (String × List String))
  all_members : List String
  member_assignments : List (String × List Assignment)
  deriving DecidableEq, Repr

def emptyAgg : Agg :=
  { committees := [], subcommittees := [], all_members := [],
    member_assignments := [] }

/-- The member key `f"{name}, {state}"` (source lines 82 and 112). -/
def mkKey (name stc : String) : String := name ++ ", " ++ stc

/-- Append one produced record to the aggregates (source lines 83,
94-99 and 113, 124-125): the member set, the member index, and -- with a
subcommittee current -- the subcommittee index, otherwise the committee
index. -/
def applyRecord (st : ScanState) (agg : Agg) (ka : String × Assignment) : Agg :=
  let key := ka.1
  if truthy st.current_subcommittee then
    { committees := agg.committees
      subcommittees :=
        updAssocD st.current_committee
          (updAssocD (st.current_subcommittee.getD "") (fun l => l ++ [key]) [])
          [] agg.subcommittees
      all_members := insertSet key agg.all_members
      member_assignments :=
        updAssocD key (fun l => l ++ [ka.2]) [] agg.member_assignments }
  else
    { committees :=
        updAssocD st.current_committee (fun l => l ++ [key]) [] agg.committees
      subcommittees := agg.subcommittees
      all_members := insertSet key agg.all_members
      member_assignments :=
        updAssocD key (fun l => l ++ [ka.2]) [] agg.member_assignments }

/-- The records of Rule A for one line (source lines 76-94): one per
`findall` match, with the parsed rank, the normalized name and the
current scan context. -/
def ruleAEmitted (page : Nat) (st : ScanState) (line : String) :
    List (String × Assignment) :=
  (findallA line.toList.length line.toList).map fun m =>
    (mkKey (normSpace m.2.1) m.2.2,
     { committee := st.current_committee,
       subcommittee := st.current_subcommittee,
       position := m.1, page := page,
       group := if st.is_majority then "Majority" else "Minority",
       raw_line := line })

/-- Index the elements of a list starting at `n`, modelling
`enumerate`. -/
def enumIdx {α : Type} : Nat → List α → List (Nat × α)
  | _, [] => []
  | n, x :: xs => (n, x) :: enumIdx (n + 1) xs

/-- The records of Rule B for one line (source lines 103-125): only
produced when a subcommittee is current (Python truthiness) and Rule A
matched nothing; rank is the sentinel 0, the first match of the line is
Majority and every later match Minority, and the name gets the
concatenation repair. -/
def ruleBEmitted (page : Nat) (st : ScanState) (line : String) :
    List (String × Assignment) :=
  if truthy st.current_subcommittee
      && (findallA line.toList.length line.toList).isEmpty then
    (enumIdx 0 (findallB line.toList.length line.toList)).map fun m =>
      (mkKey (fixName m.2.1) m.2.2,
       { committee := st.current_committee,
         subcommittee := st.current_subcommittee,
         position := 0, page := page,
         group := if m.1 = 0 then "Majority" else "Minority",
         raw_line := line })
  else []

/-- The all-caps boilerplate phrases skipped at source lines 47-52. -/
def skipPatterns : List String :=
  ["STANDING COMMITTEES", "SELECT COMMITTEES", "JOINT COMMITTEES",
   "ALPHABETICAL LIST", "HOUSE OF REPRESENTATIVES", "ONE HUNDRED",
   "CONGRESS", "MAJORITY", "MINORITY", "DEMOCRATS", "REPUBLICANS",
   "RAT\x49O", "WASHINGTON", "CONTENTS", "PREPARED UNDER"]

/-- `any(pattern in line for pattern in skip_patterns)` (source
line 54). -/
def anySkip (line : String) : Bool :=
  skipPatterns.any fun p => containsSub p.toList line.toList

/-- Process one line of one page: the body of the inner loop of the
source (lines 29-125).  The line is stripped; blank lines are skipped;
then the subcommittee-section-header test, the all-caps header test
(with the noise/group-marker subcase and the subcommittee/main-committee
disambiguation), and finally the member rules. -/
def processLine (page : Nat) (acc : ScanState × Agg) (rawLine : String) :
    ScanState × Agg :=
  let st := acc.1
  let agg := acc.2
  let line := pyStrip rawLine
  if line = "" then (st, agg)
  else if (subcommParse line.toList).isSome then
    let st1 := { st with in_subcommittee_section := true }
    match searchOn line.toList with
    | some c =>
      ({ st1 with current_committee := some c, current_subcommittee := none },
       agg)
    | none => (st1, agg)
  else if pyIsUpper line.toList && decide (3 < line.length)
      && !(hasPrefixL subL line.toList) then
    if anySkip line then
      (if containsSub "MAJORITY".toList line.toList then
        { st with is_majority := true }
       else if containsSub "MINORITY".toList line.toList then
        { st with is_majority := false }
       else st, agg)
    else if st.in_subcommittee_section && truthy st.current_committee then
      ({ st with current_subcommittee := some line }, agg)
    else
      ({ st with current_committee := some line, current_subcommittee := none,
                 in_subcommittee_section := false, is_majority := true }, agg)
  else
    let recs := ruleAEmitted page st line ++ ruleBEmitted page st line
    (st, recs.foldl (applyRecord st) agg)

/-- Insert a string into a sorted list (ascending). -/
def insertStr (x : String) : List String → List String
  | [] => [x]
  | y :: ys => if x < y then x :: y :: ys else y :: insertStr x ys

/-- `sorted(...)` on a list of strings, by insertion sort. -/
def sortStrings (l : List String) : List String := l.foldr insertStr []

/-- The scan over all pages: `enumerate(pdf.pages, 1)` and the nested
line loop, from the freshly initialized state and accumulators. -/
def scanPages (pages : List (List String)) : ScanState × Agg :=
  (enumIdx 1 pages).foldl
    (fun acc p => p.2.foldl (processLine p.1) acc) (initState, emptyAgg)

/-- The result object of the source (lines 127-132). -/
structure Output where
  committees : List (Option String × List String)
  subcommittees : List (Option String × List (String × List String))
  members : List String
  member_assignments : List (String × List Assignment)
  deriving DecidableEq, Repr

/-- `extract_all_committee_data`: scan every page and package the
aggregates, with the global member set sorted. -/
def extract_all_committee_data (pages : List (List String)) : Output :=
  let r := scanPages pages
  { committees := r.2.committees, subcommittees := r.2.subcommittees,
    members := sortStrings r.2.all_members,
    member_assignments := r.2.member_assignments }

/-! ## Theorems -/

/-- C1: for every line matching the subcommittee-section-header pattern
"SUBCOMMITTEE(S) OF THE COMMITTEE ON name" (case-insensitive, with
`name` the committee extracted by the `ON`-search), processing the line
sets `currentCommittee` to the extracted name, clears
`currentSubcommittee`, sets `inSubcommitteeSection`, and leaves the
aggregates and the group flag untouched. -/
theorem C1_subcommittee_section_header (page : Nat) (st : ScanState)
    (agg : Agg) (line : String) (n : String)
    (hm : (subcommParse (pyStrip line).toList).isSome = true)
    (hn : searchOn (pyStrip line).toList = some n) :
    processLine page (st, agg) line =
      ({ st with current_committee := some n, current_subcommittee := none,
                 in_subcommittee_section := true }, agg) := by
  have hne : ¬ (pyStrip line = "") := by
    intro h
    rw [h] at hm
    exact absurd hm (by decide)
  simp only [String.toList] at hm hn
  simp [processLine, hne, hm, hn]

/-- Witness for C1 at the concrete line
"SUBCOMMITTEES OF THE COMMITTEE ON RULES": the state afterwards has
committee "RULES", no subcommittee, and the section flag set. -/
theorem C1_witness :
    (subcommParse (pyStrip "SUBCOMMITTEES OF THE COMMITTEE ON RULES").toList).isSome
      = true ∧
    searchOn (pyStrip "SUBCOMMITTEES OF THE COMMITTEE ON RULES").toList
      = some "RULES" ∧
    processLine 1 (initState, emptyAgg) "SUBCOMMITTEES OF THE COMMITTEE ON RULES" =
      ({ initState with current_committee := some "RULES",
                        current_subcommittee := none,
                        in_subcommittee_section := true }, emptyAgg) :=
  ⟨by decide, by decide,
   C1_subcommittee_section_header 1 initState emptyAgg
     "SUBCOMMITTEES OF THE COMMITTEE ON RULES" "RULES" (by decide) (by decide)⟩

/-- C3: parsing "3. Pete Sessions, TX" under committee "RULES", no
subcommittee, Majority group emits exactly one record -- rank 3, group
Majority, member "Pete Sessions"/"TX" -- filed under the committee
index, the member set and the member index, with the state unchanged. -/
theorem C3_numbered_entry :
    processLine 1
      ({ current_committee := some "RULES", current_subcommittee := none,
         in_subcommittee_section := false, is_majority := true }, emptyAgg)
      "3. Pete Sessions, TX" =
      ({ current_committee := some "RULES", current_subcommittee := none,
         in_subcommittee_section := false, is_majority := true },
       { committees := [(some "RULES", ["Pete Sessions, TX"])],
         subcommittees := [],
         all_members := ["Pete Sessions, TX"],
         member_assignments := [("Pete Sessions, TX",
           [{ committee := some "RULES", subcommittee := none, position := 3,
              page := 1, group := "Majority",
              raw_line := "3. Pete Sessions, TX" }])] }) := by decide

/-- C8: the scan is deterministic -- the extraction is a pure fold from
an explicitly initialized state, so two runs on identical input produce
identical aggregate output. -/
theorem C8_deterministic (pages : List (List String)) :
    extract_all_committee_data pages = extract_all_committee_data pages := rfl

theorem enumIdx_length {α : Type} (n : Nat) (l : List α) :
    (enumIdx n l).length = l.length := by
  induction l generalizing n with
  | nil => rfl
  | cons x xs ih => simp [enumIdx, ih]

theorem getD_map_enumIdx {α β : Type} (f : Nat × α → β) (d : β) (d2 : α) :
    ∀ (n : Nat) (ms : List α) (i : Nat), i < ms.length →
      ((enumIdx n ms).map f).getD i d = f (n + i, ms.getD i d2) := by
  intro n ms
  induction ms generalizing n with
  | nil => intro i h; simp at h
  | cons m ms ih =>
    intro i h
    cases i with
    | zero => simp [enumIdx]
    | succ j =>
      have hj : j < ms.length := by simpa using h
      have h2 : n + 1 + j = n + (j + 1) := by omega
      simp only [enumIdx, List.map_cons, List.getD_cons_succ]
      rw [ih (n + 1) j hj, h2]

/-- Default pair for `List.getD` on emitted records. -/
def dfltKA : String × Assignment :=
  ("", { committee := none, subcommittee := none, position := 0, page := 0,
         group := "", raw_line := "" })

/-- C4: the unnumbered line "Pete Sessions, TXJuan Vargas, CA" under an
active subcommittee is split into exactly two records -- "Pete Sessions"
of TX with group Majority, then "Juan Vargas" of CA with group Minority,
both of rank 0, carrying the current committee and subcommittee -- and
in general the first Rule-B match of a line gets Majority and every
later match Minority. -/
theorem C4_unnumbered_split :
    (processLine 1
      ({ current_committee := some "RULES",
         current_subcommittee := some "LEGISLATIVE AND BUDGET PROCESS",
         in_subcommittee_section := true, is_majority := true }, emptyAgg)
      "Pete Sessions, TXJuan Vargas, CA" =
      ({ current_committee := some "RULES",
         current_subcommittee := some "LEGISLATIVE AND BUDGET PROCESS",
         in_subcommittee_section := true, is_majority := true },
       { committees := [],
         subcommittees := [(some "RULES",
           [("LEGISLATIVE AND BUDGET PROCESS",
             ["Pete Sessions, TX", "Juan Vargas, CA"])])],
         all_members := ["Pete Sessions, TX", "Juan Vargas, CA"],
         member_assignments :=
           [("Pete Sessions, TX",
             [{ committee := some "RULES",
                subcommittee := some "LEGISLATIVE AND BUDGET PROCESS",
                position := 0, page := 1, group := "Majority",
                raw_line := "Pete Sessions, TXJuan Vargas, CA" }]),
            ("Juan Vargas, CA",
             [{ committee := some "RULES",
                subcommittee := some "LEGISLATIVE AND BUDGET PROCESS",
                position := 0, page := 1, group := "Minority",
                raw_line := "Pete Sessions, TXJuan Vargas, CA" }])] })) ∧
    ∀ (page : Nat) (st : ScanState) (line : String) (i : Nat),
      i < (ruleBEmitted page st line).length →
      ((ruleBEmitted page st line).getD i dfltKA).2.group =
        if i = 0 then "Majority" else "Minority" := by
  refine ⟨by decide, ?_⟩
  intro page st line i h
  unfold ruleBEmitted at h ⊢
  by_cases hg : (truthy st.current_subcommittee
      && (findallA line.toList.length line.toList).isEmpty) = true
  · rw [if_pos hg] at h ⊢
    have hi : i < (findallB line.toList.length line.toList).length := by
      simpa [enumIdx_length] using h
    rw [getD_map_enumIdx _ _ ("", "") 0 _ i hi]
    simp
  · rw [if_neg hg] at h
    simp at h

/-- Witness for the general clause of C4: on the concrete two-name line,
the second Rule-B record gets group Minority. -/
theorem C4_witness :
    1 < (ruleBEmitted 1
      { current_committee := some "RULES",
        current_subcommittee := some "LEGISLATIVE AND BUDGET PROCESS",
        in_subcommittee_section := true, is_majority := true }
      "Pete Sessions, TXJuan Vargas, CA").length ∧
    ((ruleBEmitted 1
      { current_committee := some "RULES",
        current_subcommittee := some "LEGISLATIVE AND BUDGET PROCESS",
        in_subcommittee_section := true, is_majority := true }
      "Pete Sessions, TXJuan Vargas, CA").getD 1 dfltKA).2.group = "Minority" :=
  ⟨by decide,
   C4_unnumbered_split.2 1
     { current_committee := some "RULES",
       current_subcommittee := some "LEGISLATIVE AND BUDGET PROCESS",
       in_subcommittee_section := true, is_majority := true }
     "Pete Sessions, TXJuan Vargas, CA" 1 (by decide)⟩

/-- C5: Rule B fires only when Rule A matched nothing on the line and a
subcommittee is current -- if Rule A produced a match, or no subcommittee
is set, no Rule-B record is emitted. -/
theorem C5_ruleB_guard (page : Nat) (st : ScanState) (line : String) :
    (findallA line.toList.length line.toList ≠ [] →
      ruleBEmitted page st line = []) ∧
    (truthy st.current_subcommittee = false →
      ruleBEmitted page st line = []) := by
  constructor
  · intro h
    have h2 : (findallA line.toList.length line.toList).isEmpty = false := by
      cases hl : findallA line.toList.length line.toList with
      | nil => exact absurd hl h
      | cons a t => rfl
    simp only [ruleBEmitted]
    rw [h2]
    simp
  · intro h
    simp [ruleBEmitted, h]

/-- Witness for C5: a numbered line under an active subcommittee has a
Rule-A match and emits no Rule-B record. -/
theorem C5_witness :
    findallA "3. Pete Sessions, TX".toList.length "3. Pete Sessions, TX".toList
      ≠ [] ∧
    ruleBEmitted 1
      { current_committee := some "RULES",
        current_subcommittee := some "LEGISLATIVE AND BUDGET PROCESS",
        in_subcommittee_section := true, is_majority := true }
      "3. Pete Sessions, TX" = [] :=
  ⟨by decide,
   (C5_ruleB_guard 1
     { current_committee := some "RULES",
       current_subcommittee := some "LEGISLATIVE AND BUDGET PROCESS",
       in_subcommittee_section := true, is_majority := true }
     "3. Pete Sessions, TX").1 (by decide)⟩

/-- C9: the member parser does not require a committee: every Rule-A
record carries the scan's current committee -- `None` included -- and a
numbered line processed in the initial state (no committee ever seen)
still produces a record, filed in the member index, the global member
set, and the committee index under the `None` key. -/
theorem C9_no_committee_required :
    (∀ (page : Nat) (st : ScanState) (line : String)
        (ka : String × Assignment), ka ∈ ruleAEmitted page st line →
        ka.2.committee = st.current_committee) ∧
    processLine 1 (initState, emptyAgg) "3. Pete Sessions, TX" =
      (initState,
       { committees := [(none, ["Pete Sessions, TX"])],
         subcommittees := [],
         all_members := ["Pete Sessions, TX"],
         member_assignments := [("Pete Sessions, TX",
           [{ committee := none, subcommittee := none, position := 3,
              page := 1, group := "Majority",
              raw_line := "3. Pete Sessions, TX" }])] }) := by
  refine ⟨?_, by decide⟩
  intro page st line ka hka
  simp only [ruleAEmitted, List.mem_map] at hka
  obtain ⟨m, _, rfl⟩ := hka
  rfl

/-- Witness for the general clause of C9: the record of the concrete
numbered line processed with no committee set carries committee
`None`. -/
theorem C9_witness :
    ("Pete Sessions, TX",
     ({ committee := none, subcommittee := none, position := 3, page := 1,
        group := "Majority", raw_line := "3. Pete Sessions, TX" } : Assignment))
      ∈ ruleAEmitted 1 initState "3. Pete Sessions, TX" ∧
    ("Pete Sessions, TX",
     ({ committee := none, subcommittee := none, position := 3, page := 1,
        group := "Majority", raw_line := "3. Pete Sessions, TX" } : Assignment)).2.committee
      = initState.current_committee :=
  ⟨by decide,
   C9_no_committee_required.1 1 initState "3. Pete Sessions, TX" _ (by decide)⟩

/-- Whether a character list is free of lowercase-to-uppercase adjacent
pairs (the transitions the concatenation repair splits). -/
def noLUAdj : List Char → Bool
  | [] => true
  | [_] => true
  | a :: b :: rest => !(isLowerA a && isUpperA b) && noLUAdj (b :: rest)

theorem toList_asString (l : List Char) : (List.asString l).toList = l := rfl

theorem noLUAdj_cons_notLower {x : Char} {t : List Char}
    (hx : isLowerA x = false) (ht : noLUAdj t = true) :
    noLUAdj (x :: t) = true := by
  cases t with
  | nil => rfl
  | cons y tt => simp [noLUAdj, hx] at ht ⊢; exact ht

theorem noLUAdj_cons_notUpper {x y : Char} {t : List Char}
    (hy : isUpperA y = false) (ht : noLUAdj (y :: t) = true) :
    noLUAdj (x :: y :: t) = true := by
  simp [noLUAdj, hy] at ht ⊢
  exact ht

theorem fixConcat_head (b : Char) (rest : List Char) :
    ∃ t, fixConcat (b :: rest) = b :: t := by
  cases rest with
  | nil => exact ⟨[], rfl⟩
  | cons c r =>
    by_cases h : (isLowerA b && isUpperA c) = true
    · exact ⟨' ' :: c :: fixConcat r, by simp [fixConcat, h]⟩
    · exact ⟨fixConcat (c :: r), by simp [fixConcat, h]⟩

/-- The concatenation repair removes every lowercase-to-uppercase
adjacency. -/
theorem noLUAdj_fixConcat (l : List Char) : noLUAdj (fixConcat l) = true := by
  induction l using fixConcat.induct with
  | case1 => rfl
  | case2 c => rfl
  | case3 a b rest h ih =>
    have hb : isUpperA b = true := by
      simp at h
      exact h.2
    have hbl : isLowerA b = false := by
      simp [isLowerA, isUpperA] at hb ⊢
      omega
    have h1 := noLUAdj_cons_notLower hbl ih
    have h2 := noLUAdj_cons_notLower (x := ' ') (by decide) h1
    have h3 := noLUAdj_cons_notUpper (x := a) (y := ' ') (by decide) h2
    simpa [fixConcat, h] using h3
  | case4 a b rest h ih =>
    obtain ⟨t, ht⟩ := fixConcat_head b rest
    rw [ht] at ih
    have hab : (isLowerA a && isUpperA b) = false := by
      cases hx : (isLowerA a && isUpperA b) with
      | false => rfl
      | true => exact absurd hx h
    have hthis : noLUAdj (a :: b :: t) = true := by
      simp only [noLUAdj]
      rw [hab, ih]
      rfl
    simpa [fixConcat, h, ht] using hthis

theorem noLUAdj_append_front (c : Char) (ys : List Char)
    (hc : isUpperA c = false) (hys : noLUAdj (c :: ys) = true) :
    ∀ xs, noLUAdj xs = true → noLUAdj (xs ++ c :: ys) = true := by
  intro xs
  induction xs with
  | nil => intro _; simpa
  | cons x tail ih =>
    intro hxs
    cases tail with
    | nil => exact noLUAdj_cons_notUpper hc hys
    | cons y t =>
      simp only [noLUAdj, Bool.and_eq_true] at hxs
      have hpair := hxs.1
      have hrest := ih hxs.2
      simp only [List.cons_append] at hrest ⊢
      simp only [noLUAdj, Bool.and_eq_true]
      exact ⟨hpair, hrest⟩

/-- Shape of every state code captured by the member patterns: exactly
two uppercase letters. -/
def upp2 (stc : String) : Prop :=
  ∃ a b, isUpperA a = true ∧ isUpperA b = true ∧ stc = ([a, b]).asString

theorem stateCode2_upp2 {l : List Char} {stc : String} {rem : List Char}
    (h : stateCode2 l = some (stc, rem)) : upp2 stc := by
  match l with
  | [] => exact absurd h (by simp [stateCode2])
  | [a] => exact absurd h (by simp [stateCode2])
  | a :: b :: rem2 =>
    simp only [stateCode2] at h
    split at h
    · rename_i hup
      simp only [Bool.and_eq_true] at hup
      simp only [Option.some.injEq, Prod.mk.injEq] at h
      exact ⟨a, b, hup.1, hup.2, h.1.symm⟩
    · exact absurd h (by simp)

theorem tailTestA_upp2 {s : List Char} {stc : String} {rem : List Char}
    (h : tailTestA s = some (stc, rem)) : upp2 stc := by
  cases s with
  | nil => exact absurd h (by simp [tailTestA])
  | cons c r =>
    simp only [tailTestA] at h
    split at h
    · exact stateCode2_upp2 h
    · exact absurd h (by simp)

theorem tailTestB_upp2 {s : List Char} {stc : String} {rem : List Char}
    (h : tailTestB s = some (stc, rem)) : upp2 stc := by
  unfold tailTestB at h
  cases hA : tailTestA s with
  | none => rw [hA] at h; exact absurd h (by simp)
  | some p =>
    rw [hA] at h
    simp at h
    obtain ⟨h1, -⟩ := h
    obtain ⟨stc0, rem0⟩ := p
    exact h1 ▸ tailTestA_upp2 hA

theorem lazyB_upp2 :
    ∀ (input acc : List Char) (nm stc : String) (rem : List Char),
      lazyB acc input = some ((nm, stc), rem) → upp2 stc := by
  intro input
  induction input with
  | nil => intro acc nm stc rem h; exact absurd h (by simp [lazyB])
  | cons c rest ih =>
    intro acc nm stc rem h
    unfold lazyB at h
    split at h
    · cases hT : tailTestB rest with
      | none => rw [hT] at h; exact ih _ _ _ _ h
      | some p =>
        rw [hT] at h
        obtain ⟨stc0, rem0⟩ := p
        simp at h
        exact h.1.2 ▸ tailTestB_upp2 hT
    · exact absurd h (by simp)

theorem matchBAt_upp2 {s : List Char} {nm stc : String} {rem : List Char}
    (h : matchBAt s = some ((nm, stc), rem)) : upp2 stc := by
  cases s with
  | nil => exact absurd h (by simp [matchBAt])
  | cons c rest =>
    simp only [matchBAt] at h
    split at h
    · exact lazyB_upp2 rest [c] nm stc rem h
    · exact absurd h (by simp)

theorem findallB_upp2 :
    ∀ (fuel : Nat) (s : List Char) (nm stc : String),
      (nm, stc) ∈ findallB fuel s → upp2 stc := by
  intro fuel
  induction fuel with
  | zero => intro s nm stc h; exact absurd h (by simp [findallB])
  | succ f ih =>
    intro s nm stc h
    cases s with
    | nil => exact absurd h (by simp [findallB])
    | cons c rest =>
      unfold findallB at h
      cases hM : matchBAt (c :: rest) with
      | none => rw [hM] at h; exact ih _ _ _ h
      | some p =>
        rw [hM] at h
        obtain ⟨⟨nm0, stc0⟩, rem⟩ := p
        rcases List.mem_cons.mp h with h1 | h1
        · cases h1
          exact matchBAt_upp2 hM
        · exact ih _ _ _ h1

theorem mem_of_mem_enumIdx {α : Type} :
    ∀ (n : Nat) (l : List α) (i : Nat) (x : α),
      (i, x) ∈ enumIdx n l → x ∈ l := by
  intro n l
  induction l generalizing n with
  | nil => intro i x h; exact absurd h (by simp [enumIdx])
  | cons y ys ih =>
    intro i x h
    rcases List.mem_cons.mp h with h1 | h1
    · cases h1; exact List.mem_cons_self _ _
    · exact List.mem_cons_of_mem _ (ih (n + 1) i x h1)

theorem noLUAdj_state_tail {a b : Char} (ha : isUpperA a = true) :
    noLUAdj [',', ' ', a, b] = true := by
  simp [noLUAdj, isLowerA, isUpperA] at ha ⊢
  omega

/-- C10: every Rule-B record's member key is free of
lowercase-to-uppercase adjacencies -- the repair inserts a space at every
such transition, so the legitimate intra-name transition of "McCarthy"
is also split into "Mc Carthy" -- while Rule-A names get no repair and
the Rule-A key for "1. McCarthy, CA" keeps the transition. -/
theorem C10_concat_repair :
    (∀ s : String, noLUAdj (fixName s).toList = true) ∧
    (∀ (page : Nat) (st : ScanState) (line : String)
        (ka : String × Assignment), ka ∈ ruleBEmitted page st line →
        noLUAdj ka.1.toList = true) ∧
    fixName "McCarthy" = "Mc Carthy" ∧
    (ruleAEmitted 1 initState "1. McCarthy, CA").map Prod.fst
      = ["McCarthy, CA"] ∧
    noLUAdj "McCarthy, CA".toList = false := by
  have hfix : ∀ s : String, noLUAdj (fixName s).toList = true := by
    intro s
    show noLUAdj ((fixConcat (normSpace s).toList).asString).toList = true
    rw [toList_asString]
    exact noLUAdj_fixConcat _
  refine ⟨hfix, ?_, by decide, by decide, by decide⟩
  intro page st line ka hka
  unfold ruleBEmitted at hka
  split at hka
  · simp only [List.mem_map] at hka
    obtain ⟨⟨i, nm, stc⟩, hmem, rfl⟩ := hka
    have hst : upp2 stc :=
      findallB_upp2 _ _ _ _ (mem_of_mem_enumIdx 0 _ i (nm, stc) hmem)
    obtain ⟨a, b, ha, hb, rfl⟩ := hst
    show noLUAdj (mkKey (fixName nm) (List.asString [a, b])).toList = true
    have hdata : (mkKey (fixName nm) (List.asString [a, b])).toList
        = (fixName nm).toList ++ (',' :: ' ' :: [a, b]) := by
      show ((fixName nm ++ ", ") ++ List.asString [a, b]).data
        = (fixName nm).data ++ (',' :: ' ' :: [a, b])
      rw [String.data_append, String.data_append, List.append_assoc]
      rfl
    rw [hdata]
    exact noLUAdj_append_front ',' (' ' :: [a, b]) (by decide)
      (noLUAdj_state_tail ha) _ (hfix nm)
  · exact absurd hka (by simp)

/-- Witness for the membership clause of C10: the key of the concrete
Rule-B record for "McCarthy, CA" has no lowercase-uppercase
adjacency. -/
theorem C10_witness :
    (("Mc Carthy, CA",
      ({ committee := some "RULES",
         subcommittee := some "LEGISLATIVE AND BUDGET PROCESS",
         position := 0, page := 1, group := "Majority",
         raw_line := "McCarthy, CA" } : Assignment)) ∈
      ruleBEmitted 1
        { current_committee := some "RULES",
          current_subcommittee := some "LEGISLATIVE AND BUDGET PROCESS",
          in_subcommittee_section := true, is_majority := true }
        "McCarthy, CA") ∧
    noLUAdj ("Mc Carthy, CA" : String).toList = true :=
  ⟨by decide,
   C10_concat_repair.2.1 1
     { current_committee := some "RULES",
       current_subcommittee := some "LEGISLATIVE AND BUDGET PROCESS",
       in_subcommittee_section := true, is_majority := true }
     "McCarthy, CA"
     ("Mc Carthy, CA",
      { committee := some "RULES",
        subcommittee := some "LEGISLATIVE AND BUDGET PROCESS",
        position := 0, page := 1, group := "Majority",
        raw_line := "McCarthy, CA" })
     (by decide)⟩

theorem dropCI_upper_eq :
    ∀ (ps s r : List Char), (∀ c ∈ ps, isUpperA c = true) →
      (∀ c ∈ s, isLowerA c = false) → dropCI ps s = some r → s = ps ++ r := by
  intro ps
  induction ps with
  | nil =>
    intro s r _ _ h
    simp [dropCI] at h
    simp [h]
  | cons p pt ih =>
    intro s r hps hs h
    cases s with
    | nil => exact absurd h (by simp [dropCI])
    | cons c cs =>
      simp only [dropCI] at h
      split at h
      · rename_i hm
        have hcp : c = p := by
          simp only [matchesCI, Bool.or_eq_true, beq_iff_eq] at hm
          rcases hm with h1 | h1
          · exact h1
          · exfalso
            have hpu : isUpperA p = true := hps p (List.mem_cons_self _ _)
            have hcl : isLowerA c = false := hs c (List.mem_cons_self _ _)
            simp [isUpperA] at hpu
            simp [isLowerA] at hcl
            omega
        subst hcp
        have heq := ih cs r (fun x hx => hps x (List.mem_cons_of_mem _ hx))
          (fun x hx => hs x (List.mem_cons_of_mem _ hx)) h
        simp [heq]
      · exact absurd h (by simp)

theorem hasPrefixL_append (p r : List Char) : hasPrefixL p (p ++ r) = true := by
  induction p with
  | nil => rfl
  | cons c cs ih => simp [hasPrefixL, ih]

/-- A line with no lowercase letters that matches the case-insensitive
section-header regex starts with the literal "SUBCOMMITTEE". -/
theorem subcommParse_hasPrefix {l : List Char}
    (hl : ∀ c ∈ l, isLowerA c = false)
    (h : (subcommParse l).isSome = true) : hasPrefixL subL l = true := by
  unfold subcommParse at h
  cases hd : dropCI subL l with
  | none => rw [hd] at h; exact absurd h (by simp)
  | some s1 =>
    have heq : l = subL ++ s1 := dropCI_upper_eq subL l s1 (by decide) hl hd
    rw [heq]
    exact hasPrefixL_append _ _

/-- C2: a line classified as a new main-committee header (all upper
case, longer than 3 characters, no "SUBCOMMITTEE" prefix, no noise
phrase, and not taken as a subcommittee name) sets `currentCommittee` to
the line and resets `currentSubcommittee`, `inSubcommitteeSection`, and
the group to Majority, leaving the aggregates untouched. -/
theorem C2_new_main_committee (page : Nat) (st : ScanState) (agg : Agg)
    (line : String)
    (hu : pyIsUpper (pyStrip line).toList = true)
    (hlen : 3 < (pyStrip line).length)
    (hpre : hasPrefixL subL (pyStrip line).toList = false)
    (hskip : anySkip (pyStrip line) = false)
    (hsub : (st.in_subcommittee_section && truthy st.current_committee) = false) :
    processLine page (st, agg) line =
      ({ st with current_committee := some (pyStrip line),
                 current_subcommittee := none,
                 in_subcommittee_section := false, is_majority := true },
       agg) := by
  have hlow : ∀ c ∈ (pyStrip line).toList, isLowerA c = false := by
    simp only [pyIsUpper, Bool.and_eq_true, List.all_eq_true] at hu
    intro c hc
    simpa using hu.1 c hc
  have hns : (subcommParse (pyStrip line).toList).isSome = false := by
    cases hv : (subcommParse (pyStrip line).toList).isSome with
    | false => rfl
    | true =>
      rw [subcommParse_hasPrefix hlow hv] at hpre
      cases hpre
  have hne : ¬ (pyStrip line = "") := by
    intro h0
    rw [h0] at hlen
    simp at hlen
  have hu2 : pyIsUpper (pyStrip line).toList = true := by
    simp only [pyIsUpper, Bool.and_eq_true, List.all_eq_true] at hu ⊢
    exact hu
  simp only [String.toList] at hns hu2 hpre
  simp [processLine, hne, hns, hu2, hlen, hpre, hskip, hsub]

/-- Witness for C2: the all-caps line "APPROPRIATIONS" processed in the
initial state becomes the current committee with subcommittee state
reset. -/
theorem C2_witness :
    pyIsUpper (pyStrip "APPROPRIATIONS").toList = true ∧
    3 < (pyStrip "APPROPRIATIONS").length ∧
    hasPrefixL subL (pyStrip "APPROPRIATIONS").toList = false ∧
    anySkip (pyStrip "APPROPRIATIONS") = false ∧
    (initState.in_subcommittee_section && truthy initState.current_committee)
      = false ∧
    processLine 1 (initState, emptyAgg) "APPROPRIATIONS" =
      ({ initState with current_committee := some (pyStrip "APPROPRIATIONS"),
                        current_subcommittee := none,
                        in_subcommittee_section := false,
                        is_majority := true }, emptyAgg) :=
  ⟨by decide, by decide, by decide, by decide, by decide,
   C2_new_main_committee 1 initState emptyAgg "APPROPRIATIONS"
     (by decide) (by decide) (by decide) (by decide) (by decide)⟩

/-- C7 counterexample: in a document with one committee (via the
subcommittee-section header for "RULES"), one subcommittee, and three
numbered member lines, the following all-caps header "APPROPRIATIONS"
does NOT reset `currentSubcommittee` to null: the section flag is still
set, so the line is taken as a subcommittee name and
`currentSubcommittee` becomes "APPROPRIATIONS". -/
theorem C7_counterexample :
    (scanPages [["SUBCOMMITTEES OF THE COMMITTEE ON RULES",
                 "LEGISLATIVE AND BUDGET PROCESS",
                 "1. Pete Sessions, TX", "2. Virginia Foxx, NC",
                 "3. Rob Woodall, GA"]]).1.current_subcommittee
        = some "LEGISLATIVE AND BUDGET PROCESS" ∧
    (scanPages [["SUBCOMMITTEES OF THE COMMITTEE ON RULES",
                 "LEGISLATIVE AND BUDGET PROCESS",
                 "1. Pete Sessions, TX", "2. Virginia Foxx, NC",
                 "3. Rob Woodall, GA",
                 "APPROPRIATIONS"]]).1.current_subcommittee
        = some "APPROPRIATIONS" := by decide

/-- C7 (amended): in the scenario document the all-caps header after the
subcommittee sets `currentSubcommittee` to the header line instead of
resetting it, and the three earlier members are still filed (unchanged)
under the old committee's subcommittee in the subcommittee index; in
general, processing any header-classified line (section header or
all-caps header, including noise) leaves the aggregates exactly as they
were. -/
theorem C7_header_frame :
    ((extract_all_committee_data
        [["SUBCOMMITTEES OF THE COMMITTEE ON RULES",
          "LEGISLATIVE AND BUDGET PROCESS",
          "1. Pete Sessions, TX", "2. Virginia Foxx, NC",
          "3. Rob Woodall, GA",
          "APPROPRIATIONS"]]).subcommittees =
      [(some "RULES", [("LEGISLATIVE AND BUDGET PROCESS",
         ["Pete Sessions, TX", "Virginia Foxx, NC", "Rob Woodall, GA"])])]) ∧
    ∀ (page : Nat) (st : ScanState) (agg : Agg) (line : String),
      ((subcommParse (pyStrip line).toList).isSome = true ∨
       (pyIsUpper (pyStrip line).toList = true ∧ 3 < (pyStrip line).length ∧
        hasPrefixL subL (pyStrip line).toList = false)) →
      (processLine page (st, agg) line).2 = agg := by
  refine ⟨by decide, ?_⟩
  intro page st agg line h
  by_cases hne : pyStrip line = ""
  · simp [processLine, hne]
  · rcases h with h1 | ⟨h1, h2, h3⟩
    · simp only [processLine]
      rw [if_neg hne, if_pos h1]
      split <;> rfl
    · have hlow : ∀ c ∈ (pyStrip line).toList, isLowerA c = false := by
        simp only [pyIsUpper, Bool.and_eq_true, List.all_eq_true] at h1
        intro c hc
        simpa using h1.1 c hc
      have hnone : subcommParse (pyStrip line).toList = none := by
        cases hv : subcommParse (pyStrip line).toList with
        | none => rfl
        | some s1 =>
          have hP := subcommParse_hasPrefix hlow (by rw [hv]; rfl)
          rw [hP] at h3
          cases h3
      simp only [processLine]
      rw [if_neg hne]
      rw [if_neg (show ¬ ((subcommParse (pyStrip line).toList).isSome = true) by
        intro hv
        rw [hnone] at hv
        simp at hv)]
      rw [if_pos (show (pyIsUpper (pyStrip line).toList
          && decide (3 < (pyStrip line).length)
          && !(hasPrefixL subL (pyStrip line).toList)) = true by
        rw [h1, h3]
        simp [h2])]
      split_ifs <;> rfl

/-- Witness for the frame clause of C7: processing "APPROPRIATIONS" in a
state with an active subcommittee leaves the (empty) aggregates
unchanged. -/
theorem C7_witness :
    (pyIsUpper (pyStrip "APPROPRIATIONS").toList = true ∧
     3 < (pyStrip "APPROPRIATIONS").length ∧
     hasPrefixL subL (pyStrip "APPROPRIATIONS").toList = false) ∧
    (processLine 1
      ({ current_committee := some "RULES",
         current_subcommittee := some "LEGISLATIVE AND BUDGET PROCESS",
         in_subcommittee_section := true, is_majority := true }, emptyAgg)
      "APPROPRIATIONS").2 = emptyAgg :=
  ⟨⟨by decide, by decide, by decide⟩,
   C7_header_frame.2 1
     { current_committee := some "RULES",
       current_subcommittee := some "LEGISLATIVE AND BUDGET PROCESS",
       in_subcommittee_section := true, is_majority := true }
     emptyAgg "APPROPRIATIONS" (Or.inr ⟨by decide, by decide, by decide⟩)⟩

/-! ## Key-set consistency of the aggregates (C6) -/

/-- The keys of an association list. -/
def listKeys {κ β : Type} (l : List (κ × β)) : List κ := l.map Prod.fst

/-- All values of an association list, flattened through a per-value
extractor `V`. -/
def valsBy {κ β : Type} (V : β → List String) : List (κ × β) → List String
  | [] => []
  | p :: rest => V p.2 ++ valsBy V rest

theorem mem_valsBy_updAssocD {κ β : Type} [DecidableEq κ] (V : β → List String)
    (g : β → β) (d : β) (v : String) (k : κ)
    (hg : ∀ (b : β) (x : String), x ∈ V (g b) ↔ x = v ∨ x ∈ V b)
    (hd : V d = []) :
    ∀ (l : List (κ × β)) (x : String),
      x ∈ valsBy V (updAssocD k g d l) ↔ x = v ∨ x ∈ valsBy V l := by
  intro l
  induction l with
  | nil =>
    intro x
    simp [updAssocD, valsBy, hg, hd]
  | cons p rest ih =>
    intro x
    obtain ⟨k1, b1⟩ := p
    by_cases hk : k = k1
    · simp only [updAssocD, if_pos hk, valsBy, List.mem_append, hg]
      tauto
    · simp only [updAssocD, if_neg hk, valsBy, List.mem_append, ih]
      tauto

theorem mem_listKeys_updAssocD {κ β : Type} [DecidableEq κ] (g : β → β) (d : β)
    (k : κ) :
    ∀ (l : List (κ × β)) (x : κ),
      x ∈ listKeys (updAssocD k g d l) ↔ x = k ∨ x ∈ listKeys l := by
  intro l
  induction l with
  | nil => intro x; simp [updAssocD, listKeys]
  | cons p rest ih =>
    intro x
    obtain ⟨k1, b1⟩ := p
    by_cases hk : k = k1
    · simp only [updAssocD, if_pos hk, listKeys, List.map_cons, List.mem_cons]
      subst hk
      tauto
    · simp only [updAssocD, if_neg hk, listKeys, List.map_cons, List.mem_cons]
      have hx := ih x
      simp only [listKeys] at hx
      rw [hx]
      tauto

theorem mem_insertSet (x y : String) (l : List String) :
    y ∈ insertSet x l ↔ y = x ∨ y ∈ l := by
  unfold insertSet
  split
  · rename_i hx
    constructor
    · exact fun h => Or.inr h
    · rintro (rfl | h)
      · exact hx
      · exact h
  · simp [List.mem_append]
    tauto

/-- The consistency invariant: the member set, the key set of the member
index, and the values of the committee/subcommittee indexes all contain
the same member keys. -/
def InvAgg (agg : Agg) : Prop :=
  ∀ k : String,
    (k ∈ agg.all_members ↔ k ∈ listKeys agg.member_assignments) ∧
    (k ∈ agg.all_members ↔
      (k ∈ valsBy (fun x => x) agg.committees ∨
       k ∈ valsBy (valsBy (fun x => x)) agg.subcommittees))

theorem invAgg_applyRecord (st : ScanState) (agg : Agg)
    (ka : String × Assignment) (h : InvAgg agg) :
    InvAgg (applyRecord st agg ka) := by
  intro k
  obtain ⟨h1, h2⟩ := h k
  have hone : ∀ (b : List String) (x : String),
      x ∈ b ++ [ka.1] ↔ x = ka.1 ∨ x ∈ b := by
    intro b x
    simp [List.mem_append]
    tauto
  have hkeys := mem_listKeys_updAssocD (fun l => l ++ [ka.2])
    ([] : List Assignment) ka.1 agg.member_assignments k
  have hins := mem_insertSet ka.1 k agg.all_members
  by_cases hcs : truthy st.current_subcommittee = true
  · have hsub : k ∈ valsBy (valsBy (fun y => y))
        (updAssocD st.current_committee
          (updAssocD (st.current_subcommittee.getD "")
            (fun l => l ++ [ka.1]) []) [] agg.subcommittees) ↔
        k = ka.1 ∨ k ∈ valsBy (valsBy (fun y => y)) agg.subcommittees := by
      refine mem_valsBy_updAssocD _ _ _ _ _ ?_ rfl agg.subcommittees k
      intro b x2
      exact mem_valsBy_updAssocD _ _ _ _ _ hone rfl b x2
    unfold applyRecord
    rw [if_pos hcs]
    refine ⟨?_, ?_⟩
    · rw [hins, hkeys, h1]
    · rw [hins, hsub, h2]
      constructor
      · rintro (h3 | h3 | h3)
        · exact Or.inr (Or.inl h3)
        · exact Or.inl h3
        · exact Or.inr (Or.inr h3)
      · rintro (h3 | h3 | h3)
        · exact Or.inr (Or.inl h3)
        · exact Or.inl h3
        · exact Or.inr (Or.inr h3)
  · have hcomm : k ∈ valsBy (fun y => y)
        (updAssocD st.current_committee (fun l => l ++ [ka.1]) []
          agg.committees) ↔
        k = ka.1 ∨ k ∈ valsBy (fun y => y) agg.committees :=
      mem_valsBy_updAssocD _ _ _ _ _ hone rfl agg.committees k
    unfold applyRecord
    rw [if_neg hcs]
    refine ⟨?_, ?_⟩
    · rw [hins, hkeys, h1]
    · rw [hins, hcomm, h2]
      constructor
      · rintro (h3 | h3 | h3)
        · exact Or.inl (Or.inl h3)
        · exact Or.inl (Or.inr h3)
        · exact Or.inr h3
      · rintro ((h3 | h3) | h3)
        · exact Or.inl h3
        · exact Or.inr (Or.inl h3)
        · exact Or.inr (Or.inr h3)

theorem invAgg_fold (st : ScanState) :
    ∀ (recs : List (String × Assignment)) (agg : Agg), InvAgg agg →
      InvAgg (recs.foldl (applyRecord st) agg) := by
  intro recs
  induction recs with
  | nil => intro agg h; exact h
  | cons r rest ih =>
    intro agg h
    exact ih _ (invAgg_applyRecord st agg r h)

theorem invAgg_processLine (page : Nat) (acc : ScanState × Agg) (line : String)
    (h : InvAgg acc.2) : InvAgg (processLine page acc line).2 := by
  obtain ⟨st, agg⟩ := acc
  simp only [processLine]
  repeat' split
  all_goals
    first
      | exact h
      | exact invAgg_fold st _ agg h

theorem invAgg_scanPages (pages : List (List String)) :
    InvAgg (scanPages pages).2 := by
  have hline : ∀ (p : Nat) (lines : List String) (acc : ScanState × Agg),
      InvAgg acc.2 → InvAgg ((lines.foldl (processLine p) acc)).2 := by
    intro p lines
    induction lines with
    | nil => intro acc h; exact h
    | cons ln rest ih =>
      intro acc h
      exact ih _ (invAgg_processLine p acc ln h)
  have hstep : ∀ (pl : List (Nat × List String)) (acc : ScanState × Agg),
      InvAgg acc.2 →
      InvAgg ((pl.foldl (fun a p => p.2.foldl (processLine p.1) a) acc)).2 := by
    intro pl
    induction pl with
    | nil => intro acc h; exact h
    | cons p rest ih =>
      intro acc h
      exact ih _ (hline p.1 p.2 acc h)
  have hinit : InvAgg (initState, emptyAgg).2 := by
    intro k
    simp [emptyAgg, listKeys, valsBy]
  exact hstep _ _ hinit

theorem mem_insertStr (x y : String) (l : List String) :
    y ∈ insertStr x l ↔ y = x ∨ y ∈ l := by
  induction l with
  | nil => simp [insertStr]
  | cons z zs ih =>
    unfold insertStr
    split
    · simp
    · simp only [List.mem_cons, ih]
      tauto

theorem mem_sortStrings (y : String) (l : List String) :
    y ∈ sortStrings l ↔ y ∈ l := by
  induction l with
  | nil => simp [sortStrings]
  | cons z zs ih =>
    show y ∈ insertStr z (sortStrings zs) ↔ _
    rw [mem_insertStr]
    simp only [ih, List.mem_cons]

/-- C6: after any scan, the distinct member keys of `AllMembers`, the
keys of the member index, and the keys occurring among the values of the
committee and subcommittee indexes coincide: every member key is in the
member index and in at least one of the other two indexes, and no key
occurs in an index without being in `AllMembers`. -/
theorem C6_index_key_consistency (pages : List (List String)) (k : String) :
    (k ∈ (extract_all_committee_data pages).members ↔
      k ∈ listKeys (extract_all_committee_data pages).member_assignments) ∧
    (k ∈ (extract_all_committee_data pages).members ↔
      (k ∈ valsBy (fun x => x) (extract_all_committee_data pages).committees ∨
       k ∈ valsBy (valsBy (fun x => x))
         (extract_all_committee_data pages).subcommittees)) := by
  have h := invAgg_scanPages pages k
  constructor
  · show k ∈ sortStrings (scanPages pages).2.all_members ↔
      k ∈ listKeys (scanPages pages).2.member_assignments
    rw [mem_sortStrings]
    exact h.1
  · show k ∈ sortStrings (scanPages pages).2.all_members ↔
      (k ∈ valsBy (fun x => x) (scanPages pages).2.committees ∨
       k ∈ valsBy (valsBy (fun x => x)) (scanPages pages).2.subcommittees)
    rw [mem_sortStrings]
    exact h.2

end CongressScan
